import Mathlib

/-!
Verification of the n-gram language model and generator specified for this
repository, together with three utility functions taken verbatim from the
repository's notebooks (`standard_deviation`, `is_unitary`, `tensor_product`).

The n-gram pipeline (4-gram frequency table builder, probabilistic generator,
word-length analyzer) is described by the repository's assessment text and the
specification but is not implemented in the repository's source files; the
corresponding definitions below are therefore modelled from the spec, as their
doc comments state.  The notebook functions are embedded from the source
notebooks directly.
-/

namespace NGram

/-- A dictionary with natural-number values, embedded as an association list
in insertion order, mirroring a Python `dict` used as a counter. -/
abbrev Dict (K : Type) := List (K × ℕ)

/-- Python `d.get(k)`: the value stored at the first (and, for dicts built by
`dictIncr` from empty, only) entry whose key is `k`. -/
def dictGet {K : Type} [DecidableEq K] : Dict K → K → Option ℕ
  | [], _ => none
  | e :: d, k => if e.1 = k then some e.2 else dictGet d k

/-- Python `d[k] = d.get(k, 0) + 1`: increment the entry for `k` in place if
present, otherwise append a new entry with count 1 (Python dicts preserve
insertion order). -/
def dictIncr {K : Type} [DecidableEq K] : Dict K → K → Dict K
  | [], k => [(k, 1)]
  | e :: d, k => if e.1 = k then (e.1, e.2 + 1) :: d else e :: dictIncr d k

/-- Build a counting dictionary from a list of keys in a single pass. -/
def buildDict {K : Type} [DecidableEq K] (ks : List K) : Dict K :=
  ks.foldl dictIncr []

/-- The number of occurrences of `k` in `ks`. -/
def countOf {K : Type} [DecidableEq K] (ks : List K) (k : K) : ℕ :=
  (ks.filter (fun x => decide (x = k))).length

/-- Modelled from the spec (§4.2): the list of windows of width `n` obtained
by sliding one symbol at a time across the corpus, with no padding at the
boundaries; the last usable start index is `len(corpus) - n`. -/
def ngrams (C : List Char) (n : ℕ) : List (List Char) :=
  (List.range (C.length + 1 - n)).map (fun i => (C.drop i).take n)

/-- Modelled from the spec (§4.2): each window is split into its context
(first `n-1` symbols) and next-symbol (last symbol). -/
def ngramPairs (C : List Char) (n : ℕ) : List (List Char × Char) :=
  (ngrams C n).filterMap (fun w => w.getLast?.map (fun c => (w.dropLast, c)))

/-- The Frequency Table: a mapping from (context, next-symbol) pairs to
occurrence counts.  The spec's nested mapping (context ↦ next-symbol ↦ count)
is flattened to pair keys, which carries the same information. -/
abbrev FreqTable := Dict (List Char × Char)

/-- Modelled from the spec (§4.2): the N-gram Frequency Table Builder — a
single pass over the corpus windows incrementing the count of each
(context, next-symbol) pair, inserting new keys as needed. -/
def buildTable (C : List Char) (n : ℕ) : FreqTable :=
  buildDict (ngramPairs C n)

/-- Modelled from the spec (§7): the Builder surfaces a warning to its caller
when the corpus is shorter than the window width, instead of raising an error
or staying silent; the Boolean component is the warning flag. -/
def buildTableChecked (C : List Char) (n : ℕ) : FreqTable × Bool :=
  (buildTable C n, decide (C.length < n))

/-- The true number of positions in the corpus at which the n-gram
`ctx ++ [c]` occurs (the window of width `n` starting there equals it). -/
def occCount (C : List Char) (n : ℕ) (ctx : List Char) (c : Char) : ℕ :=
  ((List.range (C.length + 1 - n)).filter
    (fun i => decide ((C.drop i).take n = ctx ++ [c]))).length

/-- The true number of positions in the corpus at which the context `ctx`
occurs followed immediately by some symbol (a full window of width `n` fits
there and starts with `ctx`). -/
def contextOccCount (C : List Char) (n : ℕ) (ctx : List Char) : ℕ :=
  ((List.range (C.length + 1 - n)).filter
    (fun i => decide ((C.drop i).take (n - 1) = ctx))).length

/-- Modelled from the spec (§4.3 step 1): the candidate next-symbol ↦ count
mapping the Frequency Table stores for a context; empty when the context is
unseen. -/
def tableNexts (t : FreqTable) (ctx : List Char) : List (Char × ℕ) :=
  t.filterMap (fun e => if e.1.1 = ctx then some (e.1.2, e.2) else none)

/-- The sum of all candidate counts for a context (the normalizing constant
of the unnormalized categorical distribution). -/
def totalWeight (cands : List (Char × ℕ)) : ℕ :=
  (cands.map (fun e => e.2)).sum

/-- Modelled from the spec (§4.3 step 3, §9): weighted random choice by a
single cumulative-sum pass over the candidates together with one uniform
draw `r` from `0, …, totalWeight - 1`. -/
def pickWeighted : List (Char × ℕ) → ℕ → Option Char
  | [], _ => none
  | e :: rest, r => if r < e.2 then some e.1 else pickWeighted rest (r - e.2)

/-- The total weight a symbol carries among the candidates (its count, when
each candidate symbol is listed once). -/
def weightOf (cands : List (Char × ℕ)) (ch : Char) : ℕ :=
  ((cands.filter (fun e => decide (e.1 = ch))).map (fun e => e.2)).sum

/-- How many of the `totalWeight cands` equiprobable draws select symbol
`ch`: the exact sampling distribution of `pickWeighted` under a uniform
draw. -/
def sampleCount (cands : List (Char × ℕ)) (ch : Char) : ℕ :=
  ((List.range (totalWeight cands)).filter
    (fun r => decide (pickWeighted cands r = some ch))).length

/-- Modelled from the spec (§4.3 step 2): the known-good seed the generator
resets to on an unseen context — the original starting context when it is
present in the table, otherwise the first context stored in the table. -/
def recoverCtx (t : FreqTable) (seed : List Char) : List Char :=
  if tableNexts t seed = [] then ((t.head?).map (fun e => e.1.1)).getD seed
  else seed

/-- Modelled from the spec (§4.3 steps 1–4): one generation step.  Look up
the current context; if it is unseen, reset it to the known-good seed;
sample one candidate with probability proportional to its count using the
uniform draw `r`; emit it and advance the context window by dropping its
first symbol and appending the chosen symbol. -/
def genStep (t : FreqTable) (seed ctx : List Char) (r : ℕ) : Char × List Char :=
  let ctx2 := if tableNexts t ctx = [] then recoverCtx t seed else ctx
  let cands := tableNexts t ctx2
  let ch := (pickWeighted cands (r % totalWeight cands)).getD 'A'
  (ch, ctx2.drop 1 ++ [ch])

/-- Modelled from the spec (§4.3): the generation loop, emitting one symbol
per step until the requested number of symbols has been produced; `rs`
supplies the stream of uniform random draws, indexed by step. -/
def genLoop (t : FreqTable) (seed : List Char) (rs : ℕ → ℕ) :
    ℕ → List Char → ℕ → List Char
  | 0, _, _ => []
  | m + 1, ctx, step =>
    let s := genStep t seed ctx (rs step)
    s.1 :: genLoop t seed rs m s.2 (step + 1)

/-- Modelled from the spec (§4.3): the Probabilistic Sequence Generator.  An
empty Frequency Table is fatal and is reported (`none`) before any generation
step is attempted; otherwise the output starts with the caller's seed and is
extended to the target total length `L`. -/
def generate (t : FreqTable) (seed : List Char) (L : ℕ) (rs : ℕ → ℕ) :
    Option (List Char) :=
  if t = [] then none
  else some (seed ++ genLoop t seed rs (L - seed.length) seed 0)

/-- Modelled from the spec (§4.4): a separator is a space or the sentence
terminator. -/
def isSep (c : Char) : Bool :=
  c == ' ' || c == '.'

/-- One step of the tokenizer fold: a separator closes the token accumulated
so far (discarding it when empty, so consecutive separators yield no empty
tokens); any other symbol extends the current token. -/
def tokStep (c : Char) (acc : List Char × List (List Char)) :
    List Char × List (List Char) :=
  if isSep c then ([], if acc.1 = [] then acc.2 else acc.1 :: acc.2)
  else (c :: acc.1, acc.2)

/-- Modelled from the spec (§4.4): the Length-Distribution Analyzer's
tokenizer — split the symbol sequence on space and sentence-terminator
boundaries; boundary characters are never part of a token and empty tokens
are dropped. -/
def tokenize (s : List Char) : List (List Char) :=
  let r := s.foldr tokStep ([], [])
  if r.1 = [] then r.2 else r.1 :: r.2

/-- Modelled from the spec (§4.4): the histogram of token lengths, as a
counting dictionary from token length to number of tokens of that length. -/
def lengthHist (toks : List (List Char)) : Dict ℕ :=
  buildDict (toks.map List.length)

end NGram

/-- A complex number with rational real and imaginary parts: the exact
arithmetic domain over which the notebook's symbolic (SymPy) matrices are
embedded. -/
structure Qi where
  re : ℚ
  im : ℚ
  deriving DecidableEq

/-- Addition of `Qi` values. -/
def Qi.add (a b : Qi) : Qi := ⟨a.re + b.re, a.im + b.im⟩

/-- Multiplication of `Qi` values. -/
def Qi.mul (a b : Qi) : Qi :=
  ⟨a.re * b.re - a.im * b.im, a.re * b.im + a.im * b.re⟩

/-- Complex conjugation of a `Qi` value. -/
def Qi.conj (a : Qi) : Qi := ⟨a.re, -a.im⟩

/-- Zero. -/
def Qi.zero : Qi := ⟨0, 0⟩

/-- One. -/
def Qi.one : Qi := ⟨1, 0⟩

/-- The dot product of two rows of `Qi` values. -/
def dotQi (u v : List Qi) : Qi :=
  (List.zipWith Qi.mul u v).foldr Qi.add Qi.zero

/-- A matrix as a list of rows, as the notebook's SymPy matrices are. -/
abbrev QMat := List (List Qi)

/-- `matrix.shape` of SymPy: (number of rows, number of columns). -/
def matShape (m : QMat) : ℕ × ℕ := (m.length, (m.headD []).length)

/-- `matrix.H` of SymPy: the conjugate transpose. -/
def matDagger (m : QMat) : QMat :=
  m.transpose.map (fun row => row.map Qi.conj)

/-- Matrix multiplication on row-list matrices. -/
def matMul (a b : QMat) : QMat :=
  a.map (fun row => b.transpose.map (fun col => dotQi row col))

/-- `sp.eye(k)` of SymPy: the k×k identity matrix. -/
def eyeQ (k : ℕ) : QMat :=
  (List.range k).map (fun i =>
    (List.range k).map (fun j => if i = j then Qi.one else Qi.zero))

/-- Embedded from `src/materials/binary_representations.ipynb`, function
`is_unitary`: return `False` for a non-square matrix, otherwise compare the
(simplified) product of the conjugate transpose with the matrix against the
identity of the matrix's dimension.  Over the exact arithmetic of `Qi`,
SymPy's `simplify` does not change the value of the product, so it is the
identity map here. -/
def is_unitary (m : QMat) : Bool :=
  if (matShape m).1 ≠ (matShape m).2 then false
  else decide (matMul (matDagger m) m = eyeQ (matShape m).1)

/-- The Kronecker (tensor) product of two state vectors, as computed by
SymPy's `TensorProduct` on column vectors. -/
def kronV (v w : List Qi) : List Qi :=
  (v.map (fun x => w.map (fun y => Qi.mul x y))).flatten

/-- Embedded from `src/materials/binary_representations.ipynb`, function
`tensor_product`: start from `qubit_list[0]` — an indexing error, modelled as
`none`, when the list is empty — and fold `TensorProduct` over the remaining
qubits left to right. -/
def tensor_product (qubit_list : List (List Qi)) : Option (List Qi) :=
  match qubit_list with
  | [] => none
  | q :: rest => some (rest.foldl kronV q)

/-- `sum(data) / len(data)` from the notebook's `standard_deviation`. -/
noncomputable def listMean (data : List ℝ) : ℝ := data.sum / data.length

/-- `[(x - mean) ** 2 for x in data]` from the notebook's
`standard_deviation`. -/
noncomputable def squaredDiffs (data : List ℝ) : List ℝ :=
  data.map (fun x => (x - listMean data) ^ 2)

/-- `sum(squared_diffs) / len(data)` from the notebook's
`standard_deviation`: the population variance. -/
noncomputable def listVariance (data : List ℝ) : ℝ :=
  (squaredDiffs data).sum / data.length

/-- Embedded from `src/project.ipynb`, function `standard_deviation`: raise
(`Except.error`) on an empty list, otherwise return `variance ** 0.5`, the
square root of the population variance. -/
noncomputable def standard_deviation (data : List ℝ) : Except String ℝ :=
  if data.length = 0 then Except.error "The data list is empty."
  else Except.ok (Real.sqrt (listVariance data))

namespace NGram

theorem dictGet_dictIncr_self {K : Type} [DecidableEq K] (d : Dict K) (k : K) :
    dictGet (dictIncr d k) k = some ((dictGet d k).getD 0 + 1) := by
  induction d with
  | nil => simp [dictIncr, dictGet]
  | cons e d ih =>
    by_cases h : e.1 = k
    · simp [dictIncr, dictGet, h]
    · simp [dictIncr, dictGet, h, ih]

theorem dictGet_dictIncr_ne {K : Type} [DecidableEq K] (d : Dict K) (k k' : K)
    (h : k' ≠ k) : dictGet (dictIncr d k) k' = dictGet d k' := by
  have hkk : ¬(k = k') := fun h' => h h'.symm
  induction d with
  | nil => simp [dictIncr, dictGet, hkk]
  | cons e d ih =>
    by_cases he : e.1 = k
    · simp [dictIncr, dictGet, he, hkk]
    · by_cases he' : e.1 = k'
      · simp [dictIncr, dictGet, he, he', h]
      · simp [dictIncr, dictGet, he, he', ih]

theorem countOf_nil {K : Type} [DecidableEq K] (k : K) : countOf [] k = 0 := rfl

theorem countOf_cons_self {K : Type} [DecidableEq K] (ks : List K) (k : K) :
    countOf (k :: ks) k = countOf ks k + 1 := by
  simp [countOf, List.filter_cons]

theorem countOf_cons_ne {K : Type} [DecidableEq K] (x : K) (ks : List K) (k : K)
    (h : x ≠ k) : countOf (x :: ks) k = countOf ks k := by
  simp [countOf, List.filter_cons, h]

/-- Folding `dictIncr` over a key list adds exactly the number of occurrences
of each key to its stored count. -/
theorem dictGet_buildDict_aux {K : Type} [DecidableEq K] (ks : List K)
    (d : Dict K) (k : K) :
    (dictGet (ks.foldl dictIncr d) k).getD 0
      = (dictGet d k).getD 0 + countOf ks k := by
  induction ks generalizing d with
  | nil => simp [countOf]
  | cons k0 ks ih =>
    rw [List.foldl_cons, ih]
    by_cases h : k0 = k
    · subst h
      rw [dictGet_dictIncr_self, countOf_cons_self]
      simp only [Option.getD_some]
      omega
    · rw [dictGet_dictIncr_ne d k0 k (fun h' => h h'.symm), countOf_cons_ne _ _ _ h]

/-- The count stored for a key in a built dictionary is the number of
occurrences of that key in the input list. -/
theorem dictGet_buildDict {K : Type} [DecidableEq K] (ks : List K) (k : K) :
    (dictGet (buildDict ks) k).getD 0 = countOf ks k := by
  rw [buildDict, dictGet_buildDict_aux]
  simp [dictGet]

/-- Invariant preservation form: every entry of `dictIncr d k` has a positive
count and a key drawn from `d`'s keys or `k`, provided `d` already satisfies
the invariant. -/
theorem dictIncr_invariant {K : Type} [DecidableEq K] (P : K → Prop)
    (d : Dict K) (k : K) (hk : P k) :
    (∀ p ∈ d, P p.1 ∧ 0 < p.2) → ∀ p ∈ dictIncr d k, P p.1 ∧ 0 < p.2 := by
  induction d with
  | nil =>
    intro _ p hp
    simp only [dictIncr, List.mem_singleton] at hp
    subst hp
    exact ⟨hk, Nat.one_pos⟩
  | cons e d ih =>
    intro hd p hp
    by_cases h : e.1 = k
    · rw [dictIncr, if_pos h] at hp
      rcases List.mem_cons.mp hp with hp | hp
      · subst hp
        exact ⟨(hd e (List.mem_cons_self _ _)).1, Nat.succ_pos _⟩
      · exact hd p (List.mem_cons_of_mem _ hp)
    · rw [dictIncr, if_neg h] at hp
      rcases List.mem_cons.mp hp with hp | hp
      · exact hp ▸ hd e (List.mem_cons_self _ _)
      · exact ih (fun q hq => hd q (List.mem_cons_of_mem _ hq)) p hp

/-- Every entry of a built dictionary has a key from the input list and a
positive count. -/
theorem mem_buildDict {K : Type} [DecidableEq K] (ks : List K)
    (p : K × ℕ) (hp : p ∈ buildDict ks) : p.1 ∈ ks ∧ 0 < p.2 := by
  suffices hgen : ∀ (ks' : List K) (d : Dict K) (P : K → Prop),
      (∀ k ∈ ks', P k) → (∀ q ∈ d, P q.1 ∧ 0 < q.2) →
      ∀ q ∈ ks'.foldl dictIncr d, P q.1 ∧ 0 < q.2 by
    exact hgen ks [] (fun k => k ∈ ks) (fun k hk => hk) (by simp) p hp
  intro ks'
  induction ks' with
  | nil => intro d P _ hd q hq; exact hd q hq
  | cons k0 ks' ih =>
    intro d P hks hd q hq
    rw [List.foldl_cons] at hq
    exact ih (dictIncr d k0) P (fun k hk => hks k (List.mem_cons_of_mem _ hk))
      (dictIncr_invariant P d k0 (hks k0 (List.mem_cons_self _ _)) hd) q hq

/-- Every start index of a window satisfies `i + n ≤ len(corpus)`. -/
theorem range_window_bound {C : List Char} {n i : ℕ}
    (hi : i ∈ List.range (C.length + 1 - n)) : i + n ≤ C.length := by
  rw [List.mem_range] at hi
  omega

/-- A window whose start index is in range has length exactly `n`. -/
theorem window_length {C : List Char} {n i : ℕ}
    (hi : i ∈ List.range (C.length + 1 - n)) :
    ((C.drop i).take n).length = n := by
  have h := range_window_bound hi
  rw [List.length_take, List.length_drop]
  omega

/-- Every window in `ngrams C n` has length exactly `n`. -/
theorem mem_ngrams_length {C : List Char} {n : ℕ} {w : List Char}
    (hw : w ∈ ngrams C n) : w.length = n := by
  rw [ngrams, List.mem_map] at hw
  obtain ⟨i, hi, rfl⟩ := hw
  exact window_length hi

/-- Every character of a window is a character of the corpus. -/
theorem mem_ngrams_subset {C : List Char} {n : ℕ} {w : List Char}
    (hw : w ∈ ngrams C n) : ∀ c ∈ w, c ∈ C := by
  rw [ngrams, List.mem_map] at hw
  obtain ⟨i, _, rfl⟩ := hw
  intro c hc
  exact List.drop_subset i C (List.take_subset n (C.drop i) hc)

/-- Every (context, next-symbol) pair produced from the windows has a context
of length exactly `n - 1`. -/
theorem mem_ngramPairs_ctx_length {C : List Char} {n : ℕ}
    {p : List Char × Char} (hp : p ∈ ngramPairs C n) :
    p.1.length = n - 1 := by
  rw [ngramPairs, List.mem_filterMap] at hp
  obtain ⟨w, hw, hpw⟩ := hp
  rcases hlast : w.getLast? with _ | c
  · rw [hlast] at hpw
    simp at hpw
  · rw [hlast] at hpw
    simp only [Option.map_some'] at hpw
    have hlen : w.length = n := mem_ngrams_length hw
    have : p.1 = w.dropLast := by
      rw [Option.some_inj] at hpw
      rw [← hpw]
    rw [this, List.length_dropLast, hlen]

/-- C5 (claim theorem): every context key stored in a built Frequency Table
has length exactly `n - 1`, and every stored count is a positive integer. -/
theorem C5_table_invariant (C : List Char) (n : ℕ) (p : (List Char × Char) × ℕ)
    (hp : p ∈ buildTable C n) : p.1.1.length = n - 1 ∧ 0 < p.2 := by
  have h := mem_buildDict _ _ hp
  exact ⟨mem_ngramPairs_ctx_length h.1, h.2⟩

/-- C5 witness: the table built from the corpus `"ABCD"` with `n = 4`
contains the entry `(("ABC", 'D'), 1)`, whose context has length 3 and whose
count is positive. -/
theorem C5_table_invariant_witness :
    ((['A', 'B', 'C'], 'D'), 1).1.1.length = 4 - 1 ∧
      0 < ((['A', 'B', 'C'], 'D'), 1).2 :=
  C5_table_invariant ['A', 'B', 'C', 'D'] 4 ((['A', 'B', 'C'], 'D'), 1)
    (by decide)

/-- C7 (claim theorem): a corpus shorter than the window width yields an
empty Frequency Table — not an error — and the warning flag to the caller is
set. -/
theorem C7_short_corpus_warns (C : List Char) (n : ℕ) (h : C.length < n) :
    buildTableChecked C n = ([], true) := by
  have hz : C.length + 1 - n = 0 := by omega
  rw [buildTableChecked, buildTable, ngramPairs, ngrams, hz]
  simp [buildDict, h]

/-- C7 witness: the empty corpus with `n = 4` yields the empty table and the
warning flag. -/
theorem C7_short_corpus_warns_witness :
    buildTableChecked [] 4 = ([], true) :=
  C7_short_corpus_warns [] 4 (by decide)

theorem length_filter_cons {α : Type} (p : α → Bool) (a : α) (l : List α) :
    ((a :: l).filter p).length
      = (if p a = true then 1 else 0) + (l.filter p).length := by
  by_cases h : p a = true
  · simp [List.filter_cons, h]
    omega
  · simp [List.filter_cons, h]

/-- Counting a value in a mapped list is counting the indices mapped to it. -/
theorem countOf_map {α β : Type} [DecidableEq α] [DecidableEq β]
    (f : α → β) (l : List α) (x : β) :
    countOf (l.map f) x = (l.filter (fun i => decide (f i = x))).length := by
  rw [countOf, List.filter_map, List.length_map]
  rfl

/-- Splitting windows into (context, next-symbol) pairs is injective on
nonempty windows: counting a pair among the split windows is counting the
corresponding n-gram among the windows themselves. -/
theorem countOf_pairs_eq (n : ℕ) :
    ∀ ws : List (List Char), (∀ w ∈ ws, w.length = n) → 1 ≤ n →
    ∀ (ctx : List Char) (c : Char),
    countOf (ws.filterMap (fun w => w.getLast?.map (fun b => (w.dropLast, b))))
        (ctx, c)
      = countOf ws (ctx ++ [c]) := by
  intro ws
  induction ws with
  | nil => intro _ _ ctx c; rfl
  | cons w ws ih =>
    intro hws hn ctx c
    have hwlen := hws w (List.mem_cons_self _ _)
    have hwne : w ≠ [] := by
      intro h
      rw [h] at hwlen
      simp at hwlen
      omega
    obtain ⟨L0, a, rfl⟩ : ∃ L0 a, w = L0 ++ [a] := by
      rcases List.eq_nil_or_concat w with h | ⟨L0, a, h⟩
      · exact absurd h hwne
      · exact ⟨L0, a, by rw [h, List.concat_eq_append]⟩
    have hrest := ih (fun v hv => hws v (List.mem_cons_of_mem _ hv)) hn ctx c
    rw [List.filterMap_cons]
    rw [List.getLast?_concat, List.dropLast_concat]
    simp only [Option.map_some']
    by_cases h : (L0, a) = (ctx, c)
    · have hL : L0 = ctx := congrArg Prod.fst h
      have ha : a = c := congrArg Prod.snd h
      rw [h, countOf_cons_self, hL, ha, countOf_cons_self, hrest]
    · have h' : L0 ++ [a] ≠ ctx ++ [c] := by
        intro he
        have hinj := List.append_inj' he (by simp)
        apply h
        have : a = c := by
          have := hinj.2
          simpa using this
        rw [hinj.1, this]
      rw [countOf_cons_ne _ _ _ h, countOf_cons_ne _ _ _ h', hrest]

/-- The per-pair half of C2: the Frequency Table's stored count for
(context, next-symbol) is the true number of occurrences of that n-gram in
the corpus. -/
theorem tableCount_eq_occCount (C : List Char) (n : ℕ) (hn : 1 ≤ n)
    (ctx : List Char) (c : Char) :
    (dictGet (buildTable C n) (ctx, c)).getD 0 = occCount C n ctx c := by
  rw [buildTable, dictGet_buildDict, ngramPairs,
    countOf_pairs_eq n (ngrams C n) (fun w hw => mem_ngrams_length hw) hn ctx c,
    ngrams, countOf_map]
  rfl

/-- Summing the window indicator over the corpus alphabet: at each in-range
start index, the window matches `ctx ++ [c]` for exactly one corpus symbol
`c` when the context matches, and for none otherwise. -/
theorem sum_indicator_window (C : List Char) (n : ℕ) (hn : 1 ≤ n)
    (ctx : List Char) (i : ℕ) (hi : i + n ≤ C.length) :
    (∑ c ∈ C.toFinset, if (C.drop i).take n = ctx ++ [c] then (1 : ℕ) else 0)
      = if (C.drop i).take (n - 1) = ctx then (1 : ℕ) else 0 := by
  have hwlen : ((C.drop i).take n).length = n := by
    rw [List.length_take, List.length_drop]
    omega
  have hwne : (C.drop i).take n ≠ [] := by
    intro h
    rw [h] at hwlen
    simp at hwlen
    omega
  obtain ⟨L0, a, hwa⟩ : ∃ L0 a, (C.drop i).take n = L0 ++ [a] := by
    rcases List.eq_nil_or_concat ((C.drop i).take n) with h | ⟨L0, a, h⟩
    · exact absurd h hwne
    · exact ⟨L0, a, by rw [h, List.concat_eq_append]⟩
  have hL0len : L0.length = n - 1 := by
    rw [hwa, List.length_append] at hwlen
    simp at hwlen
    omega
  have hpre : (C.drop i).take (n - 1) = L0 := by
    have h1 : (C.drop i).take (n - 1) = ((C.drop i).take n).take (n - 1) := by
      rw [List.take_take]
      congr 1
      omega
    rw [h1, hwa, ← hL0len, List.take_left]
  have haC : a ∈ C := by
    have ha : a ∈ (C.drop i).take n := by
      rw [hwa]
      simp
    exact List.drop_subset i C (List.take_subset n (C.drop i) ha)
  by_cases hctx : (C.drop i).take (n - 1) = ctx
  · have hL0ctx : L0 = ctx := by rw [← hpre, hctx]
    rw [if_pos hctx]
    have hcond : ∀ c : Char, ((C.drop i).take n = ctx ++ [c]) ↔ (a = c) := by
      intro c
      rw [hwa, ← hL0ctx]
      constructor
      · intro h
        have hinj := List.append_inj' h (by simp)
        simpa using hinj.2
      · intro h
        rw [h]
    calc (∑ c ∈ C.toFinset, if (C.drop i).take n = ctx ++ [c] then (1 : ℕ) else 0)
        = ∑ c ∈ C.toFinset, if a = c then (1 : ℕ) else 0 :=
          Finset.sum_congr rfl (fun c _ => if_congr (hcond c) rfl rfl)
      _ = if a ∈ C.toFinset then (1 : ℕ) else 0 :=
          Finset.sum_ite_eq C.toFinset a (fun _ => 1)
      _ = 1 := by rw [if_pos (List.mem_toFinset.mpr haC)]
  · rw [if_neg hctx]
    apply Finset.sum_eq_zero
    intro c _
    rw [if_neg]
    intro h
    apply hctx
    rw [hpre]
    have hinj := List.append_inj' (hwa.symm.trans h) (by simp)
    exact hinj.1

/-- Summing the per-symbol window counts over the corpus alphabet yields the
number of in-range positions at which the context occurs. -/
theorem sum_filter_window (C : List Char) (n : ℕ) (hn : 1 ≤ n)
    (ctx : List Char) :
    ∀ L : List ℕ, (∀ i ∈ L, i + n ≤ C.length) →
    (∑ c ∈ C.toFinset,
        (L.filter (fun i => decide ((C.drop i).take n = ctx ++ [c]))).length)
      = (L.filter (fun i => decide ((C.drop i).take (n - 1) = ctx))).length := by
  intro L
  induction L with
  | nil => intro _; simp
  | cons i L ih =>
    intro hL
    have hi : i + n ≤ C.length := hL i (List.mem_cons_self _ _)
    have hrest := ih (fun j hj => hL j (List.mem_cons_of_mem _ hj))
    calc (∑ c ∈ C.toFinset,
            ((i :: L).filter
              (fun j => decide ((C.drop j).take n = ctx ++ [c]))).length)
        = ∑ c ∈ C.toFinset,
            ((if (C.drop i).take n = ctx ++ [c] then (1 : ℕ) else 0)
              + (L.filter
                  (fun j => decide ((C.drop j).take n = ctx ++ [c]))).length) := by
          refine Finset.sum_congr rfl (fun c _ => ?_)
          rw [length_filter_cons]
          simp only [decide_eq_true_eq]
      _ = (∑ c ∈ C.toFinset,
            if (C.drop i).take n = ctx ++ [c] then (1 : ℕ) else 0)
          + ∑ c ∈ C.toFinset,
              (L.filter
                (fun j => decide ((C.drop j).take n = ctx ++ [c]))).length :=
          Finset.sum_add_distrib
      _ = (if (C.drop i).take (n - 1) = ctx then (1 : ℕ) else 0)
          + (L.filter (fun j => decide ((C.drop j).take (n - 1) = ctx))).length := by
          rw [sum_indicator_window C n hn ctx i hi, hrest]
      _ = ((i :: L).filter
            (fun j => decide ((C.drop j).take (n - 1) = ctx))).length := by
          rw [length_filter_cons]
          simp only [decide_eq_true_eq]

/-- C2 (claim theorem): for every corpus and window width with
`len(C) ≥ n ≥ 1`, the built Frequency Table reproduces exact occurrence
counts — each stored (context, next-symbol) count is the true number of
occurrences of that n-gram in the corpus, and the sum over the corpus
alphabet of the counts for a fixed context is the number of positions at
which that context occurs followed immediately by a symbol. -/
theorem C2_exact_counts (C : List Char) (n : ℕ) (hn : 1 ≤ n)
    (_hlen : n ≤ C.length) (ctx : List Char) :
    (∀ c : Char, (dictGet (buildTable C n) (ctx, c)).getD 0 = occCount C n ctx c)
    ∧ (∑ c ∈ C.toFinset, (dictGet (buildTable C n) (ctx, c)).getD 0)
        = contextOccCount C n ctx := by
  constructor
  · exact fun c => tableCount_eq_occCount C n hn ctx c
  · calc (∑ c ∈ C.toFinset, (dictGet (buildTable C n) (ctx, c)).getD 0)
        = ∑ c ∈ C.toFinset, occCount C n ctx c :=
          Finset.sum_congr rfl (fun c _ => tableCount_eq_occCount C n hn ctx c)
      _ = contextOccCount C n ctx := by
          simp only [occCount, contextOccCount]
          exact sum_filter_window C n hn ctx (List.range (C.length + 1 - n))
            (fun i hi => range_window_bound hi)

/-- C2 witness: the corpus `"ABAB"` with `n = 2` and context `"A"` — the
stored counts are the true occurrence counts and their sum over the alphabet
is the number of positions where the context occurs. -/
theorem C2_exact_counts_witness :
    (∀ c : Char,
        (dictGet (buildTable ['A', 'B', 'A', 'B'] 2) (['A'], c)).getD 0
          = occCount ['A', 'B', 'A', 'B'] 2 ['A'] c)
    ∧ (∑ c ∈ (['A', 'B', 'A', 'B'] : List Char).toFinset,
          (dictGet (buildTable ['A', 'B', 'A', 'B'] 2) (['A'], c)).getD 0)
        = contextOccCount ['A', 'B', 'A', 'B'] 2 ['A'] :=
  C2_exact_counts ['A', 'B', 'A', 'B'] 2 (by decide) (by decide) ['A']

/-- The generation loop emits exactly as many symbols as requested,
whatever the table, context and random draws are. -/
theorem genLoop_length (t : FreqTable) (seed : List Char) (rs : ℕ → ℕ) :
    ∀ (m : ℕ) (ctx : List Char) (step : ℕ),
    (genLoop t seed rs m ctx step).length = m := by
  intro m
  induction m with
  | zero => intro ctx step; rfl
  | succ m ih =>
    intro ctx step
    rw [genLoop, List.length_cons, ih]

/-- C1 (claim theorem): for every non-empty Frequency Table, every seed
context (present in the table or not) and every target length `L` at least
the seed length, generation succeeds and produces a sequence of exactly `L`
symbols; unseen contexts are recovered from by resetting to a known-good
seed, never by terminating early. -/
theorem C1_generation_length (t : FreqTable) (seed : List Char) (L : ℕ)
    (rs : ℕ → ℕ) (ht : t ≠ []) (hL : seed.length ≤ L) :
    ∃ out, generate t seed L rs = some out ∧ out.length = L := by
  refine ⟨seed ++ genLoop t seed rs (L - seed.length) seed 0, ?_, ?_⟩
  · rw [generate, if_neg ht]
  · rw [List.length_append, genLoop_length]
    omega

/-- C1 witness: a one-entry table whose only context is `"AB"`, an absent
seed context `"ZZ"` and target length 5 still yield a 5-symbol sequence. -/
theorem C1_generation_length_witness :
    ∃ out,
      generate [((['A', 'B'], 'C'), 2)] ['Z', 'Z'] 5 (fun _ => 0) = some out
        ∧ out.length = 5 :=
  C1_generation_length [((['A', 'B'], 'C'), 2)] ['Z', 'Z'] 5 (fun _ => 0)
    (by decide) (by decide)

/-- C3 (claim theorem): generation fails — reporting the error up front and
producing no output — exactly when the Frequency Table is empty; a non-empty
table never fails, whatever the seed, requested length or random draws. -/
theorem C3_empty_table_only_failure (t : FreqTable) (seed : List Char)
    (L : ℕ) (rs : ℕ → ℕ) :
    generate t seed L rs = none ↔ t = [] := by
  constructor
  · intro h
    by_contra ht
    rw [generate, if_neg ht] at h
    exact Option.some_ne_none _ h
  · intro h
    rw [generate, if_pos h]

/-- The exact sampling distribution of the cumulative-sum draw: out of the
`totalWeight cands` equiprobable values of the uniform draw, exactly
`weightOf cands ch` select the symbol `ch`. -/
theorem sampleCount_eq_weightOf :
    ∀ (cands : List (Char × ℕ)) (ch : Char),
    sampleCount cands ch = weightOf cands ch := by
  intro cands
  induction cands with
  | nil => intro ch; rfl
  | cons e rest ih =>
    intro ch
    rw [sampleCount]
    have htot : totalWeight (e :: rest) = e.2 + totalWeight rest := by
      simp [totalWeight]
    rw [htot, List.range_add, List.filter_append, List.length_append]
    have h1 : ((List.range e.2).filter
        (fun r => decide (pickWeighted (e :: rest) r = some ch))).length
        = if e.1 = ch then e.2 else 0 := by
      have hcg : ∀ r ∈ List.range e.2,
          decide (pickWeighted (e :: rest) r = some ch) = decide (e.1 = ch) := by
        intro r hr
        rw [List.mem_range] at hr
        rw [pickWeighted, if_pos hr]
        simp
      rw [List.filter_congr hcg]
      by_cases h : e.1 = ch
      · simp [h]
      · simp [h]
    have h2 : (((List.range (totalWeight rest)).map (fun x => e.2 + x)).filter
        (fun r => decide (pickWeighted (e :: rest) r = some ch))).length
        = weightOf rest ch := by
      rw [List.filter_map, List.length_map]
      have hcg : ∀ x ∈ List.range (totalWeight rest),
          ((fun r => decide (pickWeighted (e :: rest) r = some ch))
              ∘ (fun x => e.2 + x)) x
            = decide (pickWeighted rest x = some ch) := by
        intro x _
        have hx : e.2 + x - e.2 = x := by omega
        simp only [Function.comp]
        rw [pickWeighted, if_neg (by omega), hx]
      rw [List.filter_congr hcg]
      exact ih ch
    rw [h1, h2]
    by_cases h : e.1 = ch
    · simp [weightOf, List.filter_cons, h]
    · simp [weightOf, List.filter_cons, h]

/-- A symbol's total weight among the candidates is invariant under
permutation of the candidate list. -/
theorem weightOf_perm {cands cands' : List (Char × ℕ)}
    (h : cands.Perm cands') (ch : Char) :
    weightOf cands ch = weightOf cands' ch :=
  List.Perm.sum_eq (List.Perm.map _ (List.Perm.filter _ h))

/-- C4 (claim theorem): at a generation step with a seen context, exactly
`weightOf` out of the `totalWeight` equiprobable uniform draws select each
candidate — the selection probability is `count(c) / sum(counts)` — and the
distribution is unchanged when the stored candidate mapping is traversed in
any other order (any permutation of it). -/
theorem C4_sampling_distribution (t t' : FreqTable) (ctx : List Char)
    (ch : Char) (hperm : (tableNexts t ctx).Perm (tableNexts t' ctx)) :
    sampleCount (tableNexts t ctx) ch = weightOf (tableNexts t ctx) ch
    ∧ sampleCount (tableNexts t' ctx) ch = sampleCount (tableNexts t ctx) ch := by
  constructor
  · exact sampleCount_eq_weightOf _ ch
  · rw [sampleCount_eq_weightOf _ ch, sampleCount_eq_weightOf _ ch]
    exact (weightOf_perm hperm ch).symm

/-- C4 witness: a context with candidates `B ↦ 2`, `C ↦ 1` stored in the two
possible orders — 2 of the 3 draws select `B` either way. -/
theorem C4_sampling_distribution_witness :
    sampleCount (tableNexts [((['A'], 'B'), 2), ((['A'], 'C'), 1)] ['A']) 'B'
        = weightOf (tableNexts [((['A'], 'B'), 2), ((['A'], 'C'), 1)] ['A']) 'B'
    ∧ sampleCount (tableNexts [((['A'], 'C'), 1), ((['A'], 'B'), 2)] ['A']) 'B'
        = sampleCount (tableNexts [((['A'], 'B'), 2), ((['A'], 'C'), 1)] ['A']) 'B' :=
  C4_sampling_distribution [((['A'], 'B'), 2), ((['A'], 'C'), 1)]
    [((['A'], 'C'), 1), ((['A'], 'B'), 2)] ['A'] 'B' (by decide)

/-- The tokenizer fold preserves the invariant: the current partial token
contains no separator, and every finished token is non-empty and contains no
separator. -/
theorem tokStep_invariant (c : Char) (acc : List Char × List (List Char))
    (h1 : ∀ x ∈ acc.1, isSep x = false)
    (h2 : ∀ t ∈ acc.2, t ≠ [] ∧ ∀ x ∈ t, isSep x = false) :
    (∀ x ∈ (tokStep c acc).1, isSep x = false)
      ∧ ∀ t ∈ (tokStep c acc).2, t ≠ [] ∧ ∀ x ∈ t, isSep x = false := by
  by_cases hc : isSep c = true
  · rw [tokStep, if_pos hc]
    refine ⟨by intro x hx; simp at hx, ?_⟩
    intro t ht
    by_cases hacc : acc.1 = []
    · rw [if_pos hacc] at ht
      exact h2 t ht
    · rw [if_neg hacc] at ht
      rcases List.mem_cons.mp ht with ht | ht
      · exact ht ▸ ⟨hacc, h1⟩
      · exact h2 t ht
  · rw [tokStep, if_neg hc]
    refine ⟨?_, h2⟩
    intro x hx
    rcases List.mem_cons.mp hx with hx | hx
    · rw [hx]
      exact Bool.not_eq_true _ ▸ (by simpa using hc)
    · exact h1 x hx

/-- The tokenizer's fold state always satisfies the token invariant. -/
theorem foldr_tokStep_invariant (s : List Char) :
    (∀ x ∈ (s.foldr tokStep ([], [])).1, isSep x = false)
      ∧ ∀ t ∈ (s.foldr tokStep ([], [])).2,
          t ≠ [] ∧ ∀ x ∈ t, isSep x = false := by
  induction s with
  | nil => exact ⟨by intro x hx; simp at hx, by intro t ht; simp at ht⟩
  | cons c s ih =>
    rw [List.foldr_cons]
    exact tokStep_invariant c _ ih.1 ih.2

/-- Every token produced by the tokenizer is non-empty and free of
separators. -/
theorem tokenize_tokens (s : List Char) (t : List Char)
    (ht : t ∈ tokenize s) : t ≠ [] ∧ ∀ x ∈ t, isSep x = false := by
  have hinv := foldr_tokStep_invariant s
  rw [tokenize] at ht
  by_cases hr : (s.foldr tokStep ([], [])).1 = []
  · rw [if_pos hr] at ht
    exact hinv.2 t ht
  · rw [if_neg hr] at ht
    rcases List.mem_cons.mp ht with ht | ht
    · exact ht ▸ ⟨hr, hinv.1⟩
    · exact hinv.2 t ht

/-- C6 (claim theorem): the Length-Distribution Analyzer's tokenizer never
puts a boundary character (space or `'.'`) inside a token and never yields an
empty token, and the token-length histogram of `"THE CAT SAT."` is the
single-entry mapping 3 ↦ 3. -/
theorem C6_tokenizer :
    (∀ (s t : List Char), t ∈ tokenize s →
        t ≠ [] ∧ ∀ x ∈ t, x ≠ ' ' ∧ x ≠ '.')
    ∧ lengthHist (tokenize
        ['T', 'H', 'E', ' ', 'C', 'A', 'T', ' ', 'S', 'A', 'T', '.'])
      = [(3, 3)] := by
  constructor
  · intro s t ht
    have h := tokenize_tokens s t ht
    refine ⟨h.1, fun x hx => ?_⟩
    have hs := h.2 x hx
    rw [isSep] at hs
    simp at hs
    exact hs
  · decide

/-- C6 witness: the token `"THE"` of `"THE CAT SAT."` is non-empty and
contains no separator. -/
theorem C6_tokenizer_witness :
    (['T', 'H', 'E'] : List Char) ≠ []
      ∧ ∀ x ∈ (['T', 'H', 'E'] : List Char), x ≠ ' ' ∧ x ≠ '.' :=
  C6_tokenizer.1
    ['T', 'H', 'E', ' ', 'C', 'A', 'T', ' ', 'S', 'A', 'T', '.']
    ['T', 'H', 'E'] (by decide)

end NGram

theorem kronV_length (v w : List Qi) :
    (kronV v w).length = v.length * w.length := by
  rw [kronV, List.length_flatten, List.map_map]
  have h : (List.length ∘ fun x => w.map (fun y => Qi.mul x y))
      = fun _ : Qi => w.length := by
    funext x
    simp
  rw [h, List.map_const', List.sum_replicate, smul_eq_mul]

theorem foldl_kronV_length (l : List (List Qi)) :
    ∀ q : List Qi, (l.foldl kronV q).length = q.length * (l.map List.length).prod := by
  induction l with
  | nil => intro q; simp
  | cons w l ih =>
    intro q
    rw [List.foldl_cons, ih, kronV_length, List.map_cons, List.prod_cons]
    ring

/-- C10 (claim theorem): `tensor_product` fails with an indexing error
(modelled as `none`) exactly on the empty list, and on every non-empty list
of state vectors it returns their left-to-right tensor product, whose
dimension is the product of the input dimensions. -/
theorem C10_tensor_product :
    tensor_product ([] : List (List Qi)) = none
    ∧ ∀ l : List (List Qi), l ≠ [] →
        ∃ v, tensor_product l = some v
          ∧ v.length = (l.map List.length).prod := by
  constructor
  · rfl
  · intro l hl
    obtain ⟨q, rest, rfl⟩ := List.exists_cons_of_ne_nil hl
    refine ⟨rest.foldl kronV q, rfl, ?_⟩
    rw [foldl_kronV_length, List.map_cons, List.prod_cons]

/-- C10 witness: the tensor product of two 2-dimensional state vectors has
dimension 4 (= 2 · 2), the product of the input dimensions. -/
theorem C10_tensor_product_witness :
    ∃ v, tensor_product [[Qi.one, Qi.zero], [Qi.zero, Qi.one]] = some v
      ∧ v.length
          = (([[Qi.one, Qi.zero], [Qi.zero, Qi.one]] : List (List Qi)).map
              List.length).prod :=
  C10_tensor_product.2 [[Qi.one, Qi.zero], [Qi.zero, Qi.one]] (by decide)

/-- C9 (claim theorem): `is_unitary` is a total Boolean test — it raises no
error on any input — returning `false` for every non-square matrix, and for a
square matrix returning `true` exactly when the product of the conjugate
transpose with the matrix equals the identity of the matrix's dimension. -/
theorem C9_is_unitary (m : QMat) :
    ((matShape m).1 ≠ (matShape m).2 → is_unitary m = false)
    ∧ ((matShape m).1 = (matShape m).2 →
        (is_unitary m = true ↔ matMul (matDagger m) m = eyeQ (matShape m).1)) := by
  constructor
  · intro h
    rw [is_unitary, if_pos h]
  · intro h
    rw [is_unitary, if_neg (fun hne => hne h)]
    exact ⟨of_decide_eq_true, fun hp => decide_eq_true hp⟩

/-- C9 witness: the 2×2 identity matrix is square, and `is_unitary` accepts
it exactly because dagger-product equals the identity. -/
theorem C9_is_unitary_witness :
    is_unitary [[Qi.one, Qi.zero], [Qi.zero, Qi.one]] = true
      ↔ matMul (matDagger [[Qi.one, Qi.zero], [Qi.zero, Qi.one]])
            [[Qi.one, Qi.zero], [Qi.zero, Qi.one]]
          = eyeQ (matShape [[Qi.one, Qi.zero], [Qi.zero, Qi.one]]).1 :=
  (C9_is_unitary [[Qi.one, Qi.zero], [Qi.zero, Qi.one]]).2 (by decide)

/-- C8 (claim theorem): `standard_deviation` raises `ValueError` exactly on
the empty list; on every non-empty list it returns normally with the
non-negative square root of the population variance — the mean of the squared
deviations from the mean. -/
theorem C8_standard_deviation (data : List ℝ) :
    (standard_deviation data = Except.error "The data list is empty."
        ↔ data = [])
    ∧ (data ≠ [] → ∃ v, standard_deviation data = Except.ok v ∧ 0 ≤ v
        ∧ v ^ 2 = (data.map
            (fun x => (x - data.sum / data.length) ^ 2)).sum / data.length) := by
  have hvar : 0 ≤ listVariance data := by
    apply div_nonneg
    · apply List.sum_nonneg
      intro x hx
      rw [squaredDiffs, List.mem_map] at hx
      obtain ⟨y, _, rfl⟩ := hx
      exact sq_nonneg _
    · exact Nat.cast_nonneg _
  constructor
  · constructor
    · intro h
      by_contra hne
      rw [standard_deviation,
        if_neg (fun h0 => hne (List.length_eq_zero.mp h0))] at h
      exact Except.noConfusion h
    · intro h
      rw [standard_deviation, if_pos (by rw [h]; rfl)]
  · intro hne
    refine ⟨Real.sqrt (listVariance data), ?_, Real.sqrt_nonneg _, ?_⟩
    · rw [standard_deviation,
        if_neg (fun h0 => hne (List.length_eq_zero.mp h0))]
    · rw [Real.sq_sqrt hvar]
      rfl

/-- C8 witness: on the notebook's own example list `[1, 2, 3, 4, 5]` the
function returns normally with the non-negative square root of the
population variance. -/
theorem C8_standard_deviation_witness :
    ([1, 2, 3, 4, 5] : List ℝ) ≠ []
      ∧ ∃ v, standard_deviation [1, 2, 3, 4, 5] = Except.ok v ∧ 0 ≤ v
          ∧ v ^ 2 = (([1, 2, 3, 4, 5] : List ℝ).map
              (fun x => (x - ([1, 2, 3, 4, 5] : List ℝ).sum
                  / ([1, 2, 3, 4, 5] : List ℝ).length) ^ 2)).sum
              / ([1, 2, 3, 4, 5] : List ℝ).length :=
  ⟨by simp, (C8_standard_deviation [1, 2, 3, 4, 5]).2 (by simp)⟩
